import Mathlib

/-!
Verification development for the pdfexport package (pdfexport.go):
the text layout engine (parseContent, wrapText, Export's pagination
loop) and the PDF serializer (write, buildContentStream,
escapePDFString), embedded shallowly.

Modelling conventions:
* a Go string is a `List Char` (Go iterates strings rune by rune);
  where Go takes `len(s)` (a byte count) we use `utf8Len`;
* Go `float64` quantities (millimetres, points, font sizes) are exact
  rationals; the arithmetic performed by the code is plain `+ * / <`,
  which the rational model mirrors;
* `[]byte` buffers are `List Nat` with entries `< 256`;
* the zlib library (`compress/zlib`) is outside this repository, so the
  serializer is parameterised by the `compress` function it calls.
-/

set_option allowUnsafeReducibility true

attribute [semireducible] Rat.add Rat.mul Rat.div Rat.sub Rat.neg Rat.inv Rat.ofScientific

abbrev Str := List Char

/-- UTF-8 encoding of one scalar value, as Go's string type stores it. -/
def charUtf8Bytes (c : Char) : List Nat :=
  let v := c.toNat
  if v < 128 then [v]
  else if v < 2048 then [192 + v / 64, 128 + v % 64]
  else if v < 65536 then [224 + v / 4096, 128 + (v / 64) % 64, 128 + v % 64]
  else [240 + v / 262144, 128 + (v / 4096) % 64, 128 + (v / 64) % 64, 128 + v % 64]

/-- Byte length of a Go string: `len(s)` in Go. -/
def utf8Len (l : Str) : Nat := (l.map (fun c => (charUtf8Bytes c).length)).sum

/-- Byte serialization of a Go string: `[]byte(s)` in Go. -/
def strBytes : Str → List Nat
  | [] => []
  | c :: cs => charUtf8Bytes c ++ strBytes cs

/-- Go's `unicode.IsSpace`: the White_Space code points. -/
def goIsSpace (c : Char) : Bool :=
  c = ' ' ∨ c = '\t' ∨ c = '\n' ∨ c = '\r' ∨ c.toNat = 11 ∨ c.toNat = 12 ∨
  c.toNat = 133 ∨ c.toNat = 160 ∨ c.toNat = 5760 ∨
  (8192 ≤ c.toNat ∧ c.toNat ≤ 8202) ∨ c.toNat = 8232 ∨ c.toNat = 8233 ∨
  c.toNat = 8239 ∨ c.toNat = 8287 ∨ c.toNat = 12288

/-- Leading-whitespace trim, the first half of Go's `strings.TrimSpace`. -/
def goTrimLeftSpace (l : Str) : Str := l.dropWhile goIsSpace

/-- Trailing-whitespace trim, the second half of Go's `strings.TrimSpace`. -/
def goTrimRightSpace (l : Str) : Str := (l.reverse.dropWhile goIsSpace).reverse

/-- Go's `strings.TrimSpace`. -/
def goTrimSpace (l : Str) : Str := goTrimRightSpace (goTrimLeftSpace l)

/-- Go's `strings.HasPrefix pre s` (arguments: pattern, then string). -/
def goStartsWith : Str → Str → Bool
  | [], _ => true
  | _ :: _, [] => false
  | p :: ps, c :: cs => p == c && goStartsWith ps cs

/-- Go's `strings.TrimPrefix s pre` (pattern argument first here). -/
def goTrimPrefixBy (p : Str) (s : Str) : Str :=
  if goStartsWith p s then s.drop p.length else s

/-- Go's `strings.Split(s, "\n")`. -/
def splitNL : Str → List Str
  | [] => [[]]
  | c :: rest =>
    if c = '\n' then [] :: splitNL rest
    else
      match splitNL rest with
      | [] => [[c]]
      | l :: ls => (c :: l) :: ls

/-- Go's `strings.ReplaceAll(s, "\r\n", "\n")`: leftmost, non-overlapping. -/
def goReplaceCRLF : Str → Str
  | '\r' :: '\n' :: rest => '\n' :: goReplaceCRLF rest
  | c :: rest => c :: goReplaceCRLF rest
  | [] => []

/-- textStyle from pdfexport.go: font name, point size, left indent (mm). -/
structure textStyle where
  fontName : Str
  fontSize : ℚ
  indent : ℚ
deriving DecidableEq, Repr

def fontRegular : Str := ("/F1").data

def fontBold : Str := ("/F2").data

def styleTitle : textStyle := ⟨fontBold, 18, 0⟩

def styleH1 : textStyle := ⟨fontBold, 16, 0⟩

def styleH2 : textStyle := ⟨fontBold, 14, 0⟩

def styleH3 : textStyle := ⟨fontBold, 12, 0⟩

def styleBody : textStyle := ⟨fontRegular, 10.5, 0⟩

def styleBullet : textStyle := ⟨fontRegular, 10.5, 8⟩

def styleSubBullet : textStyle := ⟨fontRegular, 10.5, 14⟩

def styleNumbered : textStyle := ⟨fontRegular, 10.5, 8⟩

/-- contentBlock from pdfexport.go. -/
structure contentBlock where
  text : Str
  style : textStyle
  spaceBefore : ℚ
deriving DecidableEq, Repr

/-- Go's `\s` character class (RE2): `[\t\n\f\r ]`. -/
def goIsSpaceRe (c : Char) : Bool :=
  c = '\t' ∨ c = '\n' ∨ c.toNat = 12 ∨ c = '\r' ∨ c = ' '

/-- Length (in bytes = chars, all matched chars being ASCII) of the match of
the anchored regex `^\d+[\.\)]\s+` against `l`, as
`numberedListRe.FindStringIndex` reports it in `loc[1]`; `none` when the
regex does not match at position 0. -/
def numberedMatchLen (l : Str) : Option Nat :=
  let ds := l.takeWhile Char.isDigit
  if ds.isEmpty then none
  else
    match l.drop ds.length with
    | [] => none
    | c :: rest =>
      if c = '.' ∨ c = ')' then
        let ws := rest.takeWhile goIsSpaceRe
        if ws.isEmpty then none else some (ds.length + 1 + ws.length)
      else none

/-- The non-title, non-blank branches of the parseContent loop body
(markdown headings, bullets, numbered items, body text); every one of
these branches appends exactly one block and continues, so they are
factored into a function of the raw line and its trimmed form. -/
def classifyLine (line : Str) (trimmed : Str) : contentBlock :=
  if goStartsWith ("### ").data trimmed then
    ⟨goTrimPrefixBy ("### ").data trimmed, styleH3, 4.0⟩
  else if goStartsWith ("## ").data trimmed then
    ⟨goTrimPrefixBy ("## ").data trimmed, styleH2, 5.0⟩
  else if goStartsWith ("# ").data trimmed then
    ⟨goTrimPrefixBy ("# ").data trimmed, styleH1, 6.0⟩
  else
    -- leadingSpaces := len(line) - len(strings.TrimLeft(line, " \t"))
    let leadingSpaces :=
      utf8Len line - utf8Len (line.dropWhile (fun c => c = ' ' ∨ c = '\t'))
    let isSubItem := 2 ≤ leadingSpaces
    if goStartsWith ("- ").data trimmed ∨ goStartsWith ("* ").data trimmed then
      ⟨("-  ").data ++ trimmed.drop 2,
       if isSubItem then styleSubBullet else styleBullet, 1.5⟩
    else
      match numberedMatchLen trimmed with
      | some k => ⟨trimmed.take k ++ trimmed.drop k,
                   if isSubItem then { styleNumbered with indent := 14 }
                   else styleNumbered, 1.5⟩
      | none => ⟨trimmed, styleBody, 1.5⟩

/-- The loop of parseContent over the split lines; `isFirst` is the
`isFirstContent` flag, the head of `rest` is `lines[i+1]`. -/
def processLines : Bool → List Str → List contentBlock
  | _, [] => []
  | isFirst, line :: rest =>
    let trimmed := goTrimSpace line
    if trimmed.isEmpty then
      if isFirst then processLines true rest
      else ⟨[], styleBody, 2.0⟩ :: processLines false rest
    else
      if isFirst ∧ utf8Len trimmed < 60 ∧
         rest.head?.map goTrimSpace = some [] then
        ⟨trimmed, styleTitle, 0⟩ :: processLines false rest
      else
        classifyLine line trimmed :: processLines false rest

/-- parseContent from pdfexport.go. -/
def parseContent (content : Str) : List contentBlock :=
  processLines true (splitNL (goReplaceCRLF content))

example : parseContent ("Title\n\nBody text here.").data =
    [⟨("Title").data, styleTitle, 0⟩,
     ⟨[], styleBody, 2.0⟩,
     ⟨("Body text here.").data, styleBody, 1.5⟩] := by decide

example : parseContent ("\nHi\n").data =
    [⟨("Hi").data, styleTitle, 0⟩, ⟨[], styleBody, 2.0⟩] := by decide

example : parseContent ("# Head\nx\n  - nested").data =
    [⟨("Head").data, styleH1, 6.0⟩,
     ⟨("x").data, styleBody, 1.5⟩,
     ⟨("-  nested").data, styleSubBullet, 1.5⟩] := by decide

example : parseContent ("1. one\n2) two").data =
    [⟨("1. one").data, styleNumbered, 1.5⟩,
     ⟨("2) two").data, styleNumbered, 1.5⟩] := by decide

/-- The rune loop of splitWords: `currentWord` is the builder contents. -/
def splitWordsGo : Str → Str → List Str
  | currentWord, [] =>
    if 0 < currentWord.length then [currentWord] else []
  | currentWord, r :: rest =>
    if goIsSpace r then
      if 0 < currentWord.length then currentWord :: splitWordsGo [] rest
      else splitWordsGo [] rest
    else splitWordsGo (currentWord ++ [r]) rest

/-- splitWords from pdfexport.go: split on runs of Unicode whitespace. -/
def splitWords (text : Str) : List Str := splitWordsGo [] text

/-- Truncation toward zero, Go's `int(f)` conversion for a finite value. -/
def goTruncInt (q : ℚ) : ℤ := if 0 ≤ q then ⌊q⌋ else -⌊-q⌋

/-- The max-characters-per-line bound computed at the top of wrapText:
`charWidth := fontSize * 0.18; maxChars := int(maxWidthMM / charWidth);
if maxChars < 20 { maxChars = 20 }`. -/
def maxCharsFor (maxWidthMM fontSize : ℚ) : ℤ :=
  let charWidth := fontSize * 0.18
  let maxChars := goTruncInt (maxWidthMM / charWidth)
  if maxChars < 20 then 20 else maxChars

/-- The word loop of wrapText: state is the remaining words, the
`currentLine` builder contents, the `currentChars` counter and the
accumulated `lines`. -/
def wrapLoop (maxChars : ℤ) : List Str → Str → Nat → List Str → List Str
  | [], currentLine, _, lines =>
    if 0 < currentLine.length then lines ++ [goTrimSpace currentLine]
    else lines
  | word :: words, currentLine, currentChars, lines =>
    let wordLen := utf8Len word
    let needsSpace := 0 < currentLine.length
    let additionalChars := if needsSpace then wordLen + 1 else wordLen
    if ((currentChars + additionalChars : ℤ) > maxChars ∧ 0 < currentLine.length) then
      wrapLoop maxChars words word wordLen (lines ++ [goTrimSpace currentLine])
    else
      let currentLine' := if needsSpace then currentLine ++ ' ' :: word
                          else currentLine ++ word
      wrapLoop maxChars words currentLine' (currentChars + additionalChars) lines

/-- wrapText from pdfexport.go. -/
def wrapText (text : Str) (maxWidthMM fontSize : ℚ) : List Str :=
  if goTrimSpace text = [] then []
  else
    let words := splitWords text
    if words = [] then []
    else wrapLoop (maxCharsFor maxWidthMM fontSize) words [] 0 []

example : wrapText ("hello world").data 165 10.5 = [("hello world").data] := by decide

example : maxCharsFor 165 10.5 = 87 := by decide

example : maxCharsFor 1 10.5 = 20 := by decide

example :
    wrapText ("aaaaaaaaaaaa bbbbbbbbbbbb cccc").data 5 10.5 =
      [("aaaaaaaaaaaa bbbbbbbb").data].tail ++
      [("aaaaaaaaaaaa").data, ("bbbbbbbbbbbb cccc").data] := by decide

-- ==========================================================
-- Layout engine (the body of Export)
-- ==========================================================

def pageWidthMM : ℚ := 210.0

def pageHeightMM : ℚ := 297.0

def marginLeft : ℚ := 25.0

def marginRight : ℚ := 20.0

def marginTop : ℚ := 25.0

def marginBottom : ℚ := 25.0

def contentWidth : ℚ := pageWidthMM - marginLeft - marginRight

/-- pdfText from pdfexport.go. -/
structure pdfText where
  text : Str
  x : ℚ
  y : ℚ
  fontSize : ℚ
  fontName : Str
deriving DecidableEq, Repr

/-- A pdfPage is its list of texts; pdfDocument its list of pages. -/
abbrev pdfPage := List pdfText

structure pdfDocument where
  pages : List pdfPage
deriving DecidableEq, Repr

/-- State of Export's rendering loop: the pages created so far (the
current page, when one exists, is the last one; `page == nil` in Go is
`pages = []` here) and the vertical cursor `y`. -/
structure LayoutState where
  pages : List pdfPage
  y : ℚ
deriving DecidableEq, Repr

/-- The `newPage` closure in Export: `page = doc.addPage(); y = marginTop`. -/
def newPage (st : LayoutState) : LayoutState :=
  { pages := st.pages ++ [[]], y := marginTop }

/-- `page.addText(...)`: appends a text run to the current (last) page. -/
def addTextCur (st : LayoutState) (t : pdfText) : LayoutState :=
  { st with pages := st.pages.dropLast ++ [st.pages.getLastD [] ++ [t]] }

/-- The per-line inner loop of Export: mid-block page-overflow check,
then emission of the line as a text run. -/
def layoutLine (style : textStyle) (line : Str) (st : LayoutState) : LayoutState :=
  let lineHeight := style.fontSize * 0.45
  let st := if st.y + lineHeight > pageHeightMM - marginBottom then newPage st else st
  let xPt := (marginLeft + style.indent) * 2.83465
  let yPt := (pageHeightMM - st.y) * 2.83465
  let st := addTextCur st ⟨line, xPt, yPt, style.fontSize, style.fontName⟩
  { st with y := st.y + lineHeight }

/-- The `lines` local of Export's block loop:
`availableWidth := contentWidth - style.indent;
lines := e.wrapText(block.text, availableWidth, style.fontSize)`. -/
def blockLines (block : contentBlock) : List Str :=
  wrapText block.text (contentWidth - block.style.indent) block.style.fontSize

/-- The `blockHeight` local of Export's block loop:
`spaceBefore + float64(len(lines))*lineHeight` with
`lineHeight := style.fontSize * 0.45`. -/
def blockHeightQ (block : contentBlock) : ℚ :=
  block.spaceBefore + ((blockLines block).length : ℚ) * (block.style.fontSize * 0.45)

/-- The per-block body of Export's loop over parsed blocks. -/
def layoutBlock (st : LayoutState) (block : contentBlock) : LayoutState :=
  let lines := blockLines block
  if lines = [] then
    -- Empty block just adds spacing
    if st.pages ≠ [] then { st with y := st.y + block.spaceBefore } else st
  else
    let st :=
      if st.pages = [] ∨ st.y + blockHeightQ block > pageHeightMM - marginBottom
      then newPage st
      else { st with y := st.y + block.spaceBefore }
    lines.foldl (fun s l => layoutLine block.style l s) st

/-- The layout phase of Export: fold the block loop over the parsed
blocks, starting with no page and `y = 0`. -/
def layout (blocks : List contentBlock) : pdfDocument :=
  ⟨(blocks.foldl layoutBlock ⟨[], 0.0⟩).pages⟩

/-- Everything Export computes before `doc.write(filePath)`. -/
def exportDoc (content : Str) : pdfDocument :=
  layout (parseContent content)

example : (exportDoc []).pages = [] := by decide

example : (exportDoc (" \n \n").data).pages = [] := by decide

-- ==========================================================
-- PDF serializer (buildContentStream, escapePDFString, write)
-- ==========================================================

/-- escapePDFString's per-rune action from pdfexport.go. -/
def escapePDFChar (r : Char) : Str :=
  if r = '\\' then ("\\\\").data
  else if r = '(' then ("\\(").data
  else if r = ')' then ("\\)").data
  else if r = '\r' then ("\\r").data
  else if r = '\n' then ("\\n").data
  else if r = '\t' then ("    ").data
  else if 32 ≤ r.toNat ∧ r.toNat ≤ 126 then [r]
  else []

/-- escapePDFString from pdfexport.go. -/
def escapePDFString : Str → Str
  | [] => []
  | r :: rest => escapePDFChar r ++ escapePDFString rest

/-- Decimal digits of a natural number, as Go's `%d`. -/
def natChars (n : Nat) : Str := (Nat.repr n).data

/-- Fixed-point decimal rendering of a rational with `prec` fraction
digits, rounding to nearest: models Go's `%.1f` / `%.2f` formatting of
a float64 (the float's value differs from the exact rational by at most
a relative 2^-52, which none of the claims depends on). -/
def fmtFixed (prec : Nat) (q : ℚ) : Str :=
  let p : ℚ := (10 : ℚ) ^ prec
  let m : ℤ := ⌊q * p + 1/2⌋
  let sign : Str := if m < 0 then ['-'] else []
  let a := m.natAbs
  let scale := (10 : Nat) ^ prec
  let ip := a / scale
  let fp := a % scale
  let fpChars := natChars fp
  sign ++ natChars ip ++
    (if prec = 0 then [] else
      '.' :: (List.replicate (prec - fpChars.length) '0' ++ fpChars))

example : fmtFixed 1 10.5 = ("10.5").data := by decide

example : fmtFixed 2 (70.875 * 2.83465) = ("200.91").data := by decide

/-- The per-text body of buildContentStream's loop, as the list of
operator lines it appends: an optional `Tf` line (only when font name
or size changed), then the `Tm` and `Tj` lines. -/
def contentOpsLoop : List pdfText → Str → ℚ → List Str
  | [], _, _ => []
  | t :: rest, currentFont, currentSize =>
    (if t.fontName ≠ currentFont ∨ t.fontSize ≠ currentSize then
      [t.fontName ++ ' ' :: (fmtFixed 1 t.fontSize ++ (" Tf\n").data)]
     else []) ++
    ((("1 0 0 1 ").data ++ fmtFixed 2 t.x ++ ' ' :: (fmtFixed 2 t.y ++ (" Tm\n").data)) ::
     ('(' :: (escapePDFString t.text ++ (") Tj\n").data)) ::
     contentOpsLoop rest t.fontName t.fontSize)

/-- The operator lines of a page's content stream: `BT`, the text loop
(started with empty current font and size 0), `ET`. -/
def contentOps (p : pdfPage) : List Str :=
  ("BT\n").data :: contentOpsLoop p [] 0 ++ [("ET\n").data]

/-- Concatenation of a list of strings (successive buffer writes). -/
def catStrs : List Str → Str
  | [] => []
  | s :: ss => s ++ catStrs ss

/-- buildContentStream from pdfexport.go, as the bytes of the
concatenated operator lines. -/
def buildContentStream (p : pdfPage) : List Nat :=
  strBytes (catStrs (contentOps p))

example : buildContentStream [] = strBytes ("BT\nET\n").data := by decide

example :
    buildContentStream [⟨("hi(:)").data, 70.875, 765.35, 10.5, fontRegular⟩] =
      strBytes ("BT\n/F1 10.5 Tf\n1 0 0 1 70.88 765.35 Tm\n(hi\\(:\\)) Tj\n" ++
        "ET\n").data := by decide

/-- One record per emitted indirect object: its object number, the byte
offset at which it starts, and its body (the bytes between the
`N 0 obj` line and `endobj`).  The `objs` field of `WriteState` below
records what the two writer closures emit, so that theorems can speak
about individual objects; `buf`, `offsets` and `objectNum` are exactly
the variables of `write`. -/
structure EmittedObj where
  num : Nat
  offset : Nat
  body : List Nat
deriving DecidableEq, Repr

structure WriteState where
  buf : List Nat
  offsets : List Nat
  objectNum : Nat
  objs : List EmittedObj
deriving DecidableEq, Repr

/-- The full bytes of one emitted object: `N 0 obj\n`, body, `endobj\n`. -/
def objBytes (num : Nat) (body : List Nat) : List Nat :=
  strBytes (natChars num ++ (" 0 obj\n").data) ++ body ++ strBytes ("endobj\n").data

/-- Common core of write's two emit closures: record the offset, bump
the object number, append the object's bytes to the buffer. -/
def pushObject (st : WriteState) (body : List Nat) : WriteState :=
  let off := st.buf.length
  let n := st.objectNum + 1
  { buf := st.buf ++ objBytes n body
    offsets := st.offsets ++ [off]
    objectNum := n
    objs := st.objs ++ [⟨n, off, body⟩] }

/-- The `writeObject` closure in write: body is a string. -/
def writeObject (st : WriteState) (content : Str) : WriteState :=
  pushObject st (strBytes content)

/-- Bytes of a stream object's body: header, `stream\r\n`, the raw
stream data, `\r\nendstream\n`. -/
def streamBody (header : Str) (streamData : List Nat) : List Nat :=
  strBytes header ++ strBytes ("stream\r\n").data ++ streamData ++
    strBytes ("\r\nendstream\n").data

/-- The `writeStreamObject` closure in write. -/
def writeStreamObject (st : WriteState) (header : Str) (streamData : List Nat) : WriteState :=
  pushObject st (streamBody header streamData)

/-- The PDF header: `%PDF-1.4\n` then the binary comment line. -/
def headerBytes : List Nat :=
  strBytes ("%PDF-1.4\n").data ++ [37, 226, 227, 207, 211, 10]

def catalogDict : Str := ("<<\n/Type /Catalog\n/Pages 2 0 R\n>>\n").data

/-- The `/Kids [...]` entries: `"%d 0 R"` for object `3+i*2`, joined
with single spaces by `strings.Join`. -/
def pagesKids : Nat → Nat → Str
  | _, 0 => []
  | i, 1 => natChars (3 + i * 2) ++ (" 0 R").data
  | i, n + 1 => natChars (3 + i * 2) ++ (" 0 R ").data ++ pagesKids (i + 1) n

/-- The Pages dictionary (object 2). -/
def pagesDict (count : Nat) : Str :=
  ("<<\n/Type /Pages\n/Kids [").data ++ pagesKids 0 count ++
  ("]\n/Count ").data ++ natChars count ++ ("\n>>\n").data

/-- The Page dictionary for a page whose content stream is object
`contentObjNum`. -/
def pageDict (contentObjNum : Nat) : Str :=
  ("<<\n/Type /Page\n/Parent 2 0 R\n/MediaBox [0 0 595.28 841.89]\n/Contents ").data ++
  natChars contentObjNum ++
  (" 0 R\n/Resources <<\n/Font <<\n" ++
   "/F1 << /Type /Font /Subtype /Type1 /BaseFont /Helvetica >>\n" ++
   "/F2 << /Type /Font /Subtype /Type1 /BaseFont /Helvetica-Bold >>\n" ++
   ">>\n>>\n>>\n").data

/-- The stream object's dictionary header, declaring the compressed
length and the FlateDecode filter. -/
def streamHeader (length : Nat) : Str :=
  ("<<\n/Length ").data ++ natChars length ++ ("\n/Filter /FlateDecode\n>>\n").data

/-- The page loop of write: for page i, a Page object referring to
content object `4+i*2`, then the compressed content stream object. -/
def writePagesLoop (compress : List Nat → List Nat) :
    List pdfPage → Nat → WriteState → WriteState
  | [], _, st => st
  | page :: rest, i, st =>
    let contentObjNum := 4 + i * 2
    let content := buildContentStream page
    let compressed := compress content
    let st := writeObject st (pageDict contentObjNum)
    let st := writeStreamObject st (streamHeader compressed.length) compressed
    writePagesLoop compress rest (i + 1) st

/-- write's body up to (not including) the xref table: header, Catalog,
Pages, then all page and content-stream objects. -/
def writeBody (compress : List Nat → List Nat) (d : pdfDocument) : WriteState :=
  let st : WriteState := ⟨headerBytes, [], 0, []⟩
  let st := writeObject st catalogDict
  let st := writeObject st (pagesDict d.pages.length)
  writePagesLoop compress d.pages 0 st

/-- A 10-digit zero-padded decimal, Go's `%010d`. -/
def pad10 (n : Nat) : Str :=
  List.replicate (10 - (natChars n).length) '0' ++ natChars n

/-- One xref table entry. -/
def xrefEntry (off : Nat) : Str := pad10 off ++ (" 00000 n \n").data

def xrefEntries : List Nat → Str
  | [] => []
  | off :: rest => xrefEntry off ++ xrefEntries rest

/-- write from pdfexport.go: the bytes handed to `os.WriteFile`
(file-system effects are outside the model; the construction itself is
total and cannot fail). -/
def writeDoc (compress : List Nat → List Nat) (d : pdfDocument) : List Nat :=
  let st := writeBody compress d
  let xrefOffset := st.buf.length
  st.buf ++
  strBytes (("xref\n0 ").data ++ natChars (st.objectNum + 1) ++ ("\n").data ++
    ("0000000000 65535 f \n").data ++
    xrefEntries st.offsets ++
    ("trailer\n<<\n/Size ").data ++ natChars (st.objectNum + 1) ++
    ("\n/Root 1 0 R\n>>\n").data ++
    ("startxref\n").data ++ natChars xrefOffset ++ ("\n%%EOF\n").data)

/-- Export from pdfexport.go, as the full byte image written to disk,
parameterised by the zlib `compress` function it calls. -/
def exportBytes (compress : List Nat → List Nat) (content : Str) : List Nat :=
  writeDoc compress (exportDoc content)

example :
    (writeBody (fun bs => bs) (exportDoc [])).objs.map (fun e => e.num) = [1, 2] := by
  decide

example : pagesDict 2 =
    ("<<\n/Type /Pages\n/Kids [3 0 R 5 0 R]\n/Count 2\n>>\n").data := by decide

-- ==========================================================
-- Claims C1 and C2: content classification
-- ==========================================================
theorem classifyLine_style_ne_title (line trimmed : Str) :
    (classifyLine line trimmed).style ≠ styleTitle := by
  unfold classifyLine
  repeat' split
  · dsimp only; decide
  · dsimp only; decide
  · dsimp only; decide
  by_cases hb : (goStartsWith ("- ").data trimmed = true ∨
      goStartsWith ("* ").data trimmed = true)
  · rw [if_pos hb]; dsimp only; split <;> decide
  · rw [if_neg hb]
    cases numberedMatchLen trimmed <;> dsimp only
    · decide
    · split <;> decide

theorem processLines_false_no_title (ls : List Str) :
    ∀ b ∈ processLines false ls, b.style ≠ styleTitle := by
  induction ls with
  | nil => simp [processLines]
  | cons line rest ih =>
    intro b hb
    simp only [processLines] at hb
    split at hb
    · rcases List.mem_cons.mp hb with h | h
      · subst h; decide
      · exact ih b h
    · rcases List.mem_cons.mp hb with h | h
      · subst h; exact classifyLine_style_ne_title line (goTrimSpace line)
      · exact ih b h

/-- The amended first-line-title condition, computed on the split
lines: the first line whose trimmed form is non-blank satisfies the
heuristic exactly when its trimmed byte length is below 60 and a next
line exists whose trimmed form is blank. -/
def titleCondB : List Str → Bool
  | [] => false
  | line :: rest =>
    let trimmed := goTrimSpace line
    if trimmed.isEmpty then titleCondB rest
    else decide (utf8Len trimmed < 60 ∧ rest.head?.map goTrimSpace = some [])

theorem processLines_title_count (ls : List Str) :
    (processLines true ls).countP (fun b => b.style == styleTitle) =
      if titleCondB ls then 1 else 0 := by
  induction ls with
  | nil => simp [processLines, titleCondB]
  | cons line rest ih =>
    have h0 : (processLines false rest).countP (fun b => b.style == styleTitle) = 0 := by
      rw [List.countP_eq_zero]
      intro b hb
      simpa using processLines_false_no_title rest b hb
    by_cases he : (goTrimSpace line).isEmpty
    · simpa only [processLines, titleCondB, he, if_true, true_and] using ih
    · by_cases hc : (utf8Len (goTrimSpace line) < 60 ∧
          rest.head?.map goTrimSpace = some [])
      · simp only [processLines, titleCondB, he, hc, if_true, if_false, true_and,
          and_true, decide_True, Bool.false_eq_true]
        rw [List.countP_cons_of_pos _ _ (by dsimp only; decide)]
        simp [h0]
      · simp only [processLines, titleCondB, he, hc, if_true, if_false, true_and,
          and_true, decide_False, Bool.false_eq_true]
        rw [List.countP_cons_of_neg _ _ (by
          simpa using classifyLine_style_ne_title line (goTrimSpace line))]
        exact h0

theorem processLines_true_drop_no_title (ls : List Str) :
    ∀ b ∈ (processLines true ls).drop 1, b.style ≠ styleTitle := by
  induction ls with
  | nil => simp [processLines]
  | cons line rest ih =>
    intro b hb
    simp only [processLines] at hb
    split at hb
    · exact ih b hb
    · split at hb <;>
        simp only [List.drop_succ_cons, List.drop_zero] at hb <;>
        exact processLines_false_no_title rest b hb

/-- C1: the code gives the Title style to the first line with non-blank
trimmed content, which need not be line index 0: for the input
`"\nHi\n"`, line index 0 is blank and is followed by a non-blank line
(so under the claim no line qualifies for the Title style), yet the
parse contains exactly one Title-styled block (produced from line
index 1). -/
theorem c1_counterexample :
    goTrimSpace ((splitNL (goReplaceCRLF ("\nHi\n").data)).getD 1 []) ≠ [] ∧
    (parseContent ("\nHi\n").data).countP (fun b => b.style == styleTitle) = 1 := by
  decide

/-- C1 (amended): a block with the Title style is produced exactly when
the first line whose trimmed content is non-blank has trimmed byte
length strictly below 60 and is immediately followed by a further line
whose trimmed content is blank (`titleCondB`); the heuristic fires at
most once per export, and only the very first emitted block can carry
the Title style. -/
theorem c1_amended (content : Str) :
    ((parseContent content).countP (fun b => b.style == styleTitle) =
      if titleCondB (splitNL (goReplaceCRLF content)) then 1 else 0) ∧
    (∀ b ∈ (parseContent content).drop 1, b.style ≠ styleTitle) :=
  ⟨processLines_title_count _, processLines_true_drop_no_title _⟩

/-- C2: the claim fails twice on the code.  (a) The spacing-before
constants are 6.0 for H1, 5.0 for H2, 4.0 for H3, so spacing decreases
with heading level instead of increasing: for `"x\n# a\n## b"` the H1
block gets 6.0 and the H2 block 5.0, and 6.0 < 5.0 is false.  (b) A
`# `-marked line is not mapped to H1 regardless of position: at the
first content position with a following blank line the title heuristic
captures it, as for `"# Hi\n\nx"`. -/
theorem c2_counterexample :
    ((parseContent ("x\n# a\n## b").data).map (fun b => b.spaceBefore) =
      [1.5, 6.0, 5.0] ∧
     ¬ ((6.0 : ℚ) < 5.0)) ∧
    ((parseContent ("# Hi\n\nx").data).head?.map (fun b => b.style) =
      some styleTitle ∧ styleTitle ≠ styleH1) := by
  decide

/-- C2 (amended): outside the first-content position (the
`isFirstContent` flag being off), a line whose trimmed form is
`"# "++r` (resp. `"## "++r`, `"### "++r`) is deterministically mapped
to the H1 (resp. H2, H3) style with fixed spacing-before 6.0
(resp. 5.0, 4.0); the spacing-before values decrease as the heading
level increases: 4.0 < 5.0 < 6.0. -/
theorem c2_amended (line : Str) (ls : List Str) (r : Str) :
    (goTrimSpace line = '#' :: ' ' :: r →
      (processLines false (line :: ls)).head? = some ⟨r, styleH1, 6.0⟩) ∧
    (goTrimSpace line = '#' :: '#' :: ' ' :: r →
      (processLines false (line :: ls)).head? = some ⟨r, styleH2, 5.0⟩) ∧
    (goTrimSpace line = '#' :: '#' :: '#' :: ' ' :: r →
      (processLines false (line :: ls)).head? = some ⟨r, styleH3, 4.0⟩) ∧
    ((4.0 : ℚ) < 5.0 ∧ (5.0 : ℚ) < 6.0) := by
  refine ⟨?_, ?_, ?_, by constructor <;> decide⟩ <;> intro h <;>
    simp only [processLines, h, List.isEmpty_cons, Bool.false_eq_true, if_false,
      false_and, classifyLine, goStartsWith, goTrimPrefixBy] <;>
    simp [List.drop]

theorem c2_amended_witness :
    ((processLines false [("# a").data]).head? = some ⟨("a").data, styleH1, 6.0⟩) ∧
    ((processLines false [("## b").data]).head? = some ⟨("b").data, styleH2, 5.0⟩) ∧
    ((processLines false [("### c").data]).head? = some ⟨("c").data, styleH3, 4.0⟩) :=
  ⟨(c2_amended ("# a").data [] ("a").data).1 (by decide),
   (c2_amended ("## b").data [] ("b").data).2.1 (by decide),
   (c2_amended ("### c").data [] ("c").data).2.2.1 (by decide)⟩

-- ==========================================================
-- Claims C3 and C9: pagination
-- ==========================================================
theorem addTextCur_pages_length (st : LayoutState) (t : pdfText)
    (hp : st.pages ≠ []) :
    (addTextCur st t).pages.length = st.pages.length ∧ (addTextCur st t).pages ≠ [] := by
  unfold addTextCur
  constructor
  · simp only [List.length_append, List.length_dropLast, List.length_cons,
      List.length_nil]
    have := List.length_pos.mpr hp
    omega
  · simp

theorem layoutLine_no_overflow (style : textStyle) (line : Str) (st : LayoutState)
    (hp : st.pages ≠ [])
    (hfit : st.y + style.fontSize * 0.45 ≤ pageHeightMM - marginBottom) :
    (layoutLine style line st).pages.length = st.pages.length ∧
    (layoutLine style line st).pages ≠ [] ∧
    (layoutLine style line st).y = st.y + style.fontSize * 0.45 := by
  unfold layoutLine
  dsimp only
  rw [if_neg (not_lt.mpr hfit)]
  have h := addTextCur_pages_length st
    ⟨line, (marginLeft + style.indent) * 2.83465,
      (pageHeightMM - st.y) * 2.83465, style.fontSize, style.fontName⟩ hp
  exact ⟨h.1, h.2, rfl⟩

theorem foldLines_no_overflow (style : textStyle) (lines : List Str) :
    ∀ st : LayoutState, st.pages ≠ [] →
    (∀ j : Nat, j < lines.length →
      st.y + ((j : ℚ) + 1) * (style.fontSize * 0.45) ≤ pageHeightMM - marginBottom) →
    (lines.foldl (fun s l => layoutLine style l s) st).pages.length = st.pages.length ∧
    (lines.foldl (fun s l => layoutLine style l s) st).y =
      st.y + (lines.length : ℚ) * (style.fontSize * 0.45) := by
  induction lines with
  | nil => intro st hp _; simp
  | cons l ls ih =>
    intro st hp hfit
    have h0 := layoutLine_no_overflow style l st hp (by
      have := hfit 0 (by simp)
      simpa using this)
    have hrest := ih (layoutLine style l st) h0.2.1 (by
      intro j hj
      rw [h0.2.2]
      have := hfit (j + 1) (by simpa using Nat.succ_lt_succ hj)
      push_cast at this ⊢
      linarith)
    refine ⟨by rw [List.foldl_cons, hrest.1, h0.1], ?_⟩
    rw [List.foldl_cons, hrest.2, h0.2.2]
    simp only [List.length_cons]
    push_cast
    ring

theorem layoutLine_pages_mono (style : textStyle) (line : Str) (st : LayoutState) :
    st.pages.length ≤ (layoutLine style line st).pages.length := by
  unfold layoutLine addTextCur newPage
  dsimp only
  split <;>
    simp only [List.length_append, List.length_dropLast, List.length_cons,
      List.length_nil] <;> omega

theorem foldLines_pages_mono (style : textStyle) (lines : List Str) :
    ∀ st : LayoutState,
    st.pages.length ≤ (lines.foldl (fun s l => layoutLine style l s) st).pages.length := by
  induction lines with
  | nil => intro st; simp
  | cons l ls ih =>
    intro st
    calc st.pages.length ≤ (layoutLine style l st).pages.length :=
          layoutLine_pages_mono style l st
      _ ≤ _ := by rw [List.foldl_cons]; exact ih _

/-- C3: in Export's pagination, with at least one wrapped line and a
nonnegative font size, a block causes a new page to be started exactly
when no page exists yet or `y + blockHeight` strictly exceeds
`pageHeightMM - marginBottom`; in particular a block whose total height
exactly equals the remaining space on the current page is placed there
and creates no page (the overflow test is strict `>`, not `≥`). -/
theorem c3 (st : LayoutState) (block : contentBlock)
    (hfs : 0 ≤ block.style.fontSize)
    (hne : blockLines block ≠ []) :
    (((layoutBlock st block).pages.length > st.pages.length) ↔
      (st.pages = [] ∨
       st.y + blockHeightQ block > pageHeightMM - marginBottom)) ∧
    (st.pages ≠ [] → st.y + blockHeightQ block = pageHeightMM - marginBottom →
      (layoutBlock st block).pages.length = st.pages.length) := by
  have hunfold : layoutBlock st block =
      (blockLines block).foldl (fun s l => layoutLine block.style l s)
        (if st.pages = [] ∨ st.y + blockHeightQ block > pageHeightMM - marginBottom
         then newPage st else { st with y := st.y + block.spaceBefore }) := by
    unfold layoutBlock
    dsimp only
    rw [if_neg hne]
  by_cases hdec : st.pages = [] ∨ st.y + blockHeightQ block > pageHeightMM - marginBottom
  · rw [hunfold, if_pos hdec]
    have hlen : st.pages.length <
        ((blockLines block).foldl (fun s l => layoutLine block.style l s)
          (newPage st)).pages.length := by
      have h1 : (newPage st).pages.length = st.pages.length + 1 := by
        unfold newPage; simp
      have h2 := foldLines_pages_mono block.style (blockLines block) (newPage st)
      omega
    refine ⟨⟨fun _ => hdec, fun _ => hlen⟩, ?_⟩
    intro hp hexact
    exfalso
    rcases hdec with h | h
    · exact hp h
    · rw [hexact] at h; exact lt_irrefl _ h
  · rw [hunfold, if_neg hdec]
    push_neg at hdec
    obtain ⟨hp, hle⟩ := hdec
    have hlh : (0:ℚ) ≤ block.style.fontSize * 0.45 := by
      have : (0:ℚ) ≤ 0.45 := by norm_num
      exact mul_nonneg hfs this
    have hfold := foldLines_no_overflow block.style (blockLines block)
      { st with y := st.y + block.spaceBefore } (by simpa using hp) (by
        intro j hj
        dsimp only
        have hjn : (j : ℚ) + 1 ≤ ((blockLines block).length : ℚ) := by
          have h1 : j + 1 ≤ (blockLines block).length := hj
          exact_mod_cast h1
        have hmul : ((j : ℚ) + 1) * (block.style.fontSize * 0.45) ≤
            ((blockLines block).length : ℚ) * (block.style.fontSize * 0.45) :=
          mul_le_mul_of_nonneg_right hjn hlh
        have hbh : st.y + blockHeightQ block ≤ pageHeightMM - marginBottom := hle
        unfold blockHeightQ at hbh
        linarith)
    have hlenfold : ((blockLines block).foldl (fun s l => layoutLine block.style l s)
        { st with y := st.y + block.spaceBefore }).pages.length = st.pages.length := by
      have := hfold.1
      simpa using this
    constructor
    · constructor
      · intro hgt; rw [hlenfold] at hgt; omega
      · intro hor
        exfalso
        rcases hor with h | h
        · exact hp h
        · exact not_lt.mpr hle h
    · intro _ _; exact hlenfold

/-- C3 witness: one existing empty page with the cursor at y = 25; a
one-line block of font size 10 (line height 4.5 mm) and spacing-before
242.5 mm has total height 247 = 272 - 25, exactly the remaining space:
no new page is created. -/
theorem c3_witness :
    ((0:ℚ) ≤ (10:ℚ)) ∧
    blockLines ⟨("hi").data, ⟨fontRegular, 10, 0⟩, 242.5⟩ ≠ [] ∧
    ((25:ℚ) + blockHeightQ ⟨("hi").data, ⟨fontRegular, 10, 0⟩, 242.5⟩ =
      pageHeightMM - marginBottom) ∧
    (layoutBlock ⟨[[]], 25⟩ ⟨("hi").data, ⟨fontRegular, 10, 0⟩, 242.5⟩).pages.length =
      ([[]] : List pdfPage).length :=
  ⟨by norm_num, by decide, by decide,
   (c3 ⟨[[]], 25⟩ ⟨("hi").data, ⟨fontRegular, 10, 0⟩, 242.5⟩ (by norm_num)
     (by decide)).2 (by decide) (by decide)⟩

/-- C9: a block whose text is empty or pure whitespace wraps to zero
lines; Export then emits no text run and creates no page (the pages
are unchanged entirely), and the cursor advances by the block's
spacing-before exactly when a page already exists. -/
theorem c9 (st : LayoutState) (block : contentBlock)
    (hws : goTrimSpace block.text = []) :
    (layoutBlock st block).pages = st.pages ∧
    (layoutBlock st block).y =
      (if st.pages = [] then st.y else st.y + block.spaceBefore) := by
  have hlines : blockLines block = [] := by
    unfold blockLines wrapText
    rw [if_pos hws]
  by_cases hp : st.pages = []
  · simp [layoutBlock, hlines, hp]
  · simp [layoutBlock, hlines, hp]

/-- C9 witness: a one-space block on a state with one page advances y
by its spacing-before and changes nothing else; on a pageless state it
changes nothing at all. -/
theorem c9_witness :
    (goTrimSpace (" ").data = [] ∧
     (layoutBlock ⟨[[]], 30⟩ ⟨(" ").data, styleBody, 1.5⟩).pages = [[]] ∧
     (layoutBlock ⟨[[]], 30⟩ ⟨(" ").data, styleBody, 1.5⟩).y =
       (if ([[]] : List pdfPage) = [] then (30:ℚ) else 30 + 1.5)) ∧
    ((layoutBlock ⟨[], 0⟩ ⟨(" ").data, styleBody, 1.5⟩).pages = [] ∧
     (layoutBlock ⟨[], 0⟩ ⟨(" ").data, styleBody, 1.5⟩).y =
       (if ([] : List pdfPage) = [] then (0:ℚ) else 0 + 1.5)) :=
  ⟨⟨by decide,
    (c9 ⟨[[]], 30⟩ ⟨(" ").data, styleBody, 1.5⟩ (by decide)).1,
    (c9 ⟨[[]], 30⟩ ⟨(" ").data, styleBody, 1.5⟩ (by decide)).2⟩,
   ⟨(c9 ⟨[], 0⟩ ⟨(" ").data, styleBody, 1.5⟩ (by decide)).1,
    (c9 ⟨[], 0⟩ ⟨(" ").data, styleBody, 1.5⟩ (by decide)).2⟩⟩

-- ==========================================================
-- Claims C7 and C8: word wrapping
-- ==========================================================

/-- A word as produced by splitWords: nonempty, no whitespace runes. -/
def cleanWord (w : Str) : Prop := w ≠ [] ∧ ∀ c ∈ w, goIsSpace c = false

/-- Words joined by single spaces (the shape of every line the wrapper
builds). -/
def glue : List Str → Str
  | [] => []
  | [w] => w
  | w :: ws => w ++ ' ' :: glue ws

theorem glue_cons₂ (w v : Str) (ws : List Str) :
    glue (w :: v :: ws) = w ++ ' ' :: glue (v :: ws) := rfl

theorem glue_ne_nil (ws : List Str) (hne : ws ≠ [])
    (hc : ∀ w ∈ ws, cleanWord w) : glue ws ≠ [] := by
  match ws with
  | [w] =>
    have := (hc w (by simp)).1
    simpa [glue] using this
  | w :: v :: ws' =>
    rw [glue_cons₂]
    have := (hc w (by simp)).1
    simp [this]

theorem utf8Len_append (a b : Str) : utf8Len (a ++ b) = utf8Len a + utf8Len b := by
  unfold utf8Len
  rw [List.map_append, List.sum_append]

theorem utf8Len_cons (c : Char) (l : Str) :
    utf8Len (c :: l) = (charUtf8Bytes c).length + utf8Len l := by
  unfold utf8Len
  rw [List.map_cons, List.sum_cons]

theorem glue_snoc (ws : List Str) (hne : ws ≠ []) (w : Str) :
    glue (ws ++ [w]) = glue ws ++ ' ' :: w := by
  induction ws with
  | nil => exact absurd rfl hne
  | cons v vs ih =>
    cases vs with
    | nil => simp [glue]
    | cons u us =>
      rw [List.cons_append, glue_cons₂]
      rw [show (u :: us) ++ [w] = u :: (us ++ [w]) from rfl] at *
      rw [glue_cons₂, ih (by simp)]
      simp

theorem goTrimLeft_cons_nonspace (c : Char) (l : Str) (h : goIsSpace c = false) :
    goTrimLeftSpace (c :: l) = c :: l := by
  simp [goTrimLeftSpace, List.dropWhile, h]

theorem goTrimRight_snoc_nonspace (l : Str) (d : Char) (h : goIsSpace d = false) :
    goTrimRightSpace (l ++ [d]) = l ++ [d] := by
  simp [goTrimRightSpace, List.dropWhile, h]

/-- A list with nonspace first and last characters is its own trim. -/
theorem goTrimSpace_eq_self (l : Str)
    (h1 : ∀ c, l.head? = some c → goIsSpace c = false)
    (h2 : ∀ c, l.getLast? = some c → goIsSpace c = false) :
    goTrimSpace l = l := by
  match hl : l with
  | [] => rfl
  | c :: rest =>
    unfold goTrimSpace
    rw [goTrimLeft_cons_nonspace c rest (h1 c rfl)]
    have hne : c :: rest ≠ [] := by simp
    have hlast := List.getLast?_eq_getLast (c :: rest) hne
    obtain ⟨init, d, hid⟩ : ∃ init d, c :: rest = init ++ [d] :=
      ⟨(c :: rest).dropLast, (c :: rest).getLast hne,
        (List.dropLast_append_getLast hne).symm⟩
    rw [hid]
    apply goTrimRight_snoc_nonspace
    apply h2
    rw [hid]
    exact List.getLast?_concat _

theorem glue_head_nonspace (ws : List Str) (hc : ∀ w ∈ ws, cleanWord w) :
    ∀ c, (glue ws).head? = some c → goIsSpace c = false := by
  match ws with
  | [] => intro c hc'; simp [glue] at hc'
  | [w] =>
    intro c hh
    have hw := hc w (by simp)
    simp only [glue] at hh
    obtain ⟨a, rest, rfl⟩ : ∃ a rest, w = a :: rest := by
      cases w with
      | nil => exact absurd rfl hw.1
      | cons a rest => exact ⟨a, rest, rfl⟩
    simp at hh
    subst hh
    exact hw.2 _ (by simp)
  | w :: v :: ws' =>
    intro c hh
    have hw := hc w (by simp)
    rw [glue_cons₂] at hh
    obtain ⟨a, rest, rfl⟩ : ∃ a rest, w = a :: rest := by
      cases w with
      | nil => exact absurd rfl hw.1
      | cons a rest => exact ⟨a, rest, rfl⟩
    simp at hh
    subst hh
    exact hw.2 _ (by simp)

theorem listMemOfGetLast {α : Type} (l : List α) (a : α) (h : l.getLast? = some a) :
    a ∈ l := by
  obtain ⟨hne, rfl⟩ := List.mem_getLast?_eq_getLast (Option.mem_def.mpr h)
  exact List.getLast_mem hne

theorem glue_getLast_nonspace (ws : List Str) (hc : ∀ w ∈ ws, cleanWord w) :
    ∀ c, (glue ws).getLast? = some c → goIsSpace c = false := by
  induction ws with
  | nil => intro c hc'; simp [glue] at hc'
  | cons w vs ih =>
    cases vs with
    | nil =>
      intro c hh
      have hw := hc w (by simp)
      simp only [glue] at hh
      exact hw.2 c (listMemOfGetLast _ _ hh)
    | cons v ws' =>
      intro c hh
      rw [glue_cons₂] at hh
      have hgne : glue (v :: ws') ≠ [] :=
        glue_ne_nil _ (by simp) (fun x hx => hc x (by simp [hx]))
      rw [show w ++ ' ' :: glue (v :: ws') = (w ++ [' ']) ++ glue (v :: ws') by simp] at hh
      rw [List.getLast?_append_of_ne_nil (w ++ [' ']) hgne] at hh
      exact ih (fun x hx => hc x (by simp [hx])) c hh

theorem trim_glue (ws : List Str) (hc : ∀ w ∈ ws, cleanWord w) :
    goTrimSpace (glue ws) = glue ws :=
  goTrimSpace_eq_self _ (glue_head_nonspace ws hc) (glue_getLast_nonspace ws hc)

theorem splitWordsGo_clean (l : Str) :
    ∀ cur, (∀ c ∈ cur, goIsSpace c = false) →
    ∀ w ∈ splitWordsGo cur l, cleanWord w := by
  induction l with
  | nil =>
    intro cur hcur w hw
    simp only [splitWordsGo] at hw
    split at hw
    · rcases List.mem_singleton.mp hw with rfl
      rename_i h
      exact ⟨List.length_pos.mp h, hcur⟩
    · simp at hw
  | cons r rest ih =>
    intro cur hcur w hw
    simp only [splitWordsGo] at hw
    split at hw
    · split at hw
      · rcases List.mem_cons.mp hw with rfl | hmem
        · rename_i hsp h
          exact ⟨List.length_pos.mp h, hcur⟩
        · exact ih [] (by simp) w hmem
      · exact ih [] (by simp) w hw
    · refine ih (cur ++ [r]) ?_ w hw
      intro c hcm
      rcases List.mem_append.mp hcm with h | h
      · exact hcur c h
      · rcases List.mem_singleton.mp h with rfl
        rename_i hr
        simpa using hr

theorem splitWordsGo_word (w : Str) :
    ∀ (cur l : Str), (∀ c ∈ w, goIsSpace c = false) →
    splitWordsGo cur (w ++ l) = splitWordsGo (cur ++ w) l := by
  induction w with
  | nil => intro cur l _; simp
  | cons a rest ih =>
    intro cur l hns
    rw [List.cons_append]
    simp only [splitWordsGo]
    rw [if_neg (by simp [hns a (by simp)])]
    rw [ih (cur ++ [a]) l (fun c hc => hns c (by simp [hc]))]
    simp

theorem splitWords_glue (ws : List Str) (hne : ws ≠ [])
    (hc : ∀ w ∈ ws, cleanWord w) : splitWords (glue ws) = ws := by
  induction ws with
  | nil => exact absurd rfl hne
  | cons w vs ih =>
    have hw := hc w (by simp)
    cases vs with
    | nil =>
      show splitWordsGo [] (glue [w]) = [w]
      have : glue [w] = w ++ [] := by simp [glue]
      rw [this, splitWordsGo_word w [] [] hw.2]
      simp only [splitWordsGo, List.nil_append]
      rw [if_pos (List.length_pos.mpr hw.1)]
    | cons v ws' =>
      show splitWordsGo [] (glue (w :: v :: ws')) = w :: v :: ws'
      rw [glue_cons₂, splitWordsGo_word w [] (' ' :: glue (v :: ws')) hw.2]
      simp only [splitWordsGo, List.nil_append]
      rw [if_pos (by decide), if_pos (List.length_pos.mpr hw.1)]
      congr 1
      exact ih (by simp) (fun x hx => hc x (by simp [hx]))

/-- Claim C7's statement of the bound: floor `availableWidth / (0.18 ×
fontSize)`, clamped below at 20. -/
def maxCharsSpec (maxWidthMM fontSize : ℚ) : ℤ :=
  max 20 ⌊maxWidthMM / (0.18 * fontSize)⌋

/-- Claim C7's statement of the word loop: append the word exactly when
current-line length plus word length (plus 1 for the separating space
when the line is non-empty) does not exceed the bound; otherwise flush
the current line and start a new line with that word.  A word is never
split. -/
def packSpec (bound : ℤ) : List Str → Str → List Str
  | [], currentLine => if currentLine = [] then [] else [currentLine]
  | word :: words, currentLine =>
    if (utf8Len currentLine + (if currentLine = [] then 0 else 1) +
        utf8Len word : ℤ) ≤ bound then
      packSpec bound words (if currentLine = [] then word else currentLine ++ ' ' :: word)
    else
      (if currentLine = [] then [] else [currentLine]) ++ packSpec bound words word

/-- Claim C7's wrapper: split into words, pack greedily. -/
def wrapTextSpec (text : Str) (maxWidthMM fontSize : ℚ) : List Str :=
  packSpec (maxCharsSpec maxWidthMM fontSize) (splitWords text) []

theorem maxChars_eq_spec (maxWidthMM fontSize : ℚ) :
    maxCharsFor maxWidthMM fontSize = maxCharsSpec maxWidthMM fontSize := by
  unfold maxCharsFor maxCharsSpec goTruncInt
  dsimp only
  rw [mul_comm fontSize (0.18 : ℚ)]
  set q := maxWidthMM / (0.18 * fontSize) with hq
  by_cases h0 : 0 ≤ q
  · rw [if_pos h0]
    rcases le_or_lt 20 ⌊q⌋ with h | h
    · rw [if_neg (not_lt.mpr h), max_eq_right h]
    · rw [if_pos h, max_eq_left (le_of_lt h)]
  · rw [if_neg h0]
    have h1 : (0:ℤ) ≤ ⌊-q⌋ := Int.floor_nonneg.mpr (by linarith [not_le.mp h0])
    have h2 : -⌊-q⌋ < 20 := by omega
    rw [if_pos h2]
    have h3 : ⌊q⌋ < 20 := by
      have : ⌊q⌋ ≤ 0 := Int.floor_nonpos (le_of_lt (not_le.mp h0))
      omega
    rw [max_eq_left (le_of_lt h3)]

theorem wrapLoop_eq_packSpec (bound : ℤ) (words : List Str) :
    ∀ (cur : Str) (chars : Nat) (lines : List Str),
    chars = utf8Len cur →
    (cur = [] ∨ ∃ cws, cws ≠ [] ∧ (∀ w ∈ cws, cleanWord w) ∧ cur = glue cws) →
    (∀ w ∈ words, cleanWord w) →
    wrapLoop bound words cur chars lines = lines ++ packSpec bound words cur := by
  induction words with
  | nil =>
    intro cur chars lines hchars hcur hw
    simp only [wrapLoop, packSpec]
    rcases hcur with rfl | ⟨cws, hne, hc, rfl⟩
    · simp
    · rw [if_pos (List.length_pos.mpr (glue_ne_nil cws hne hc)),
        if_neg (glue_ne_nil cws hne hc), trim_glue cws hc]
  | cons w ws ih =>
    intro cur chars lines hchars hcur hwords
    have hwclean : cleanWord w := hwords w (by simp)
    have hrest : ∀ v ∈ ws, cleanWord v := fun v hv => hwords v (by simp [hv])
    simp only [wrapLoop, packSpec]
    rcases hcur with rfl | ⟨cws, hne, hc, rfl⟩
    · have hch0 : chars = 0 := by simpa [utf8Len] using hchars
      subst hch0
      have hns : ¬(0 < List.length ([] : Str)) := by simp
      rw [if_neg hns, if_neg hns]
      rw [if_neg (by
        intro hcontra
        exact hns hcontra.2)]
      rw [show ([] : Str) ++ w = w from rfl]
      rw [ih w (0 + utf8Len w) lines (by simp)
        (Or.inr ⟨[w], by simp, by simpa using hwclean, rfl⟩) hrest]
      congr 1
      simp [utf8Len]
    · have hgne : glue cws ≠ [] := glue_ne_nil cws hne hc
      have hlen : 0 < (glue cws).length := List.length_pos.mpr hgne
      rw [if_pos hlen, if_pos hlen, if_neg hgne, if_neg hgne, if_neg hgne]
      have hsp : (charUtf8Bytes ' ').length = 1 := by decide
      split
      · rename_i hguard
        rw [if_neg (by
          intro hfit
          rw [hchars] at hguard
          push_cast at hguard hfit
          linarith [hguard.1])]
        rw [trim_glue cws hc]
        rw [ih w (utf8Len w) (lines ++ [glue cws]) rfl
          (Or.inr ⟨[w], by simp, by simpa using hwclean, rfl⟩) hrest]
        simp
      · rename_i hguard
        rw [if_pos (by
          by_contra hnotfit
          apply hguard
          refine ⟨?_, hlen⟩
          rw [hchars]
          push_cast
          push_cast at hnotfit
          linarith [not_le.mp hnotfit])]
        rw [ih (glue cws ++ ' ' :: w) (chars + (utf8Len w + 1)) lines
          (by rw [hchars, utf8Len_append, utf8Len_cons, hsp]; omega)
          (Or.inr ⟨cws ++ [w], by simp, (by
            intro v hv
            rcases List.mem_append.mp hv with h | h
            · exact hc v h
            · rcases List.mem_singleton.mp h with rfl; exact hwclean),
            (glue_snoc cws hne w).symm⟩) hrest]

theorem splitWordsGo_all_space (l : Str) (h : ∀ c ∈ l, goIsSpace c = true) :
    splitWordsGo [] l = [] := by
  induction l with
  | nil => rfl
  | cons c rest ih =>
    simp only [splitWordsGo]
    rw [if_pos (h c (by simp))]
    rw [if_neg (by simp)]
    exact ih (fun d hd => h d (by simp [hd]))

theorem all_space_of_trim_nil (l : Str) (h : goTrimSpace l = []) :
    ∀ c ∈ l, goIsSpace c = true := by
  unfold goTrimSpace goTrimRightSpace goTrimLeftSpace at h
  have h2 : List.dropWhile goIsSpace (List.dropWhile goIsSpace l).reverse = [] := by
    simpa using congrArg List.reverse h
  have h3 : ∀ c ∈ (List.dropWhile goIsSpace l).reverse, goIsSpace c = true :=
    List.dropWhile_eq_nil_iff.mp h2
  intro c hc
  rw [← List.takeWhile_append_dropWhile (p := goIsSpace) (l := l)] at hc
  rcases List.mem_append.mp hc with hm | hm
  · exact List.mem_takeWhile_imp hm
  · exact h3 c (List.mem_reverse.mpr hm)

/-- C7: wrapText is exactly the claim's greedy algorithm: the bound is
`max 20 ⌊availableWidth / (0.18 * fontSize)⌋` (the code truncates
toward zero, but truncation and floor agree after the clamp), and a
word is appended to the current line exactly when current-line length
plus word length (plus 1 for the separating space when the line is
non-empty) stays within the bound, otherwise the line is flushed and a
new line starts with that word; a word is never split, so a single
word longer than the bound overflows on its own line. -/
theorem c7 (text : Str) (maxWidthMM fontSize : ℚ) :
    wrapText text maxWidthMM fontSize = wrapTextSpec text maxWidthMM fontSize := by
  unfold wrapText wrapTextSpec
  by_cases htrim : goTrimSpace text = []
  · rw [if_pos htrim, show splitWords text = [] from
      splitWordsGo_all_space text (all_space_of_trim_nil text htrim)]
    rfl
  · rw [if_neg htrim]
    by_cases hwords : splitWords text = []
    · rw [if_pos hwords, hwords]
      rfl
    · rw [if_neg hwords, maxChars_eq_spec]
      exact wrapLoop_eq_packSpec (maxCharsSpec maxWidthMM fontSize) (splitWords text)
        [] 0 [] (by simp [utf8Len]) (Or.inl rfl)
        (splitWordsGo_clean text [] (by simp))

theorem utf8Len_glue_snoc (xs : List Str) (hne : xs ≠ []) (w : Str) :
    utf8Len (glue (xs ++ [w])) = utf8Len (glue xs) + 1 + utf8Len w := by
  rw [glue_snoc xs hne w, utf8Len_append, utf8Len_cons]
  have hsp : (charUtf8Bytes ' ').length = 1 := by decide
  omega

theorem utf8Len_glue_prefix (ys xs : List Str) (hne : xs ≠ []) :
    utf8Len (glue xs) ≤ utf8Len (glue (xs ++ ys)) := by
  induction ys generalizing xs with
  | nil => simp
  | cons y ys ih =>
    have h1 : xs ++ y :: ys = (xs ++ [y]) ++ ys := by simp
    rw [h1]
    have h2 := ih (xs ++ [y]) (by simp)
    have h3 := utf8Len_glue_snoc xs hne y
    omega

theorem packSpec_all_fit (bound : ℤ) (ws : List Str) :
    ∀ cws, cws ≠ [] → (∀ w ∈ cws, cleanWord w) → (∀ w ∈ ws, cleanWord w) →
    (utf8Len (glue (cws ++ ws)) : ℤ) ≤ bound →
    packSpec bound ws (glue cws) = [glue (cws ++ ws)] := by
  induction ws with
  | nil =>
    intro cws hne hc _ _
    simp only [packSpec]
    rw [if_neg (glue_ne_nil cws hne hc), List.append_nil]
  | cons w ws ih =>
    intro cws hne hc hcw hfit
    have hgne : glue cws ≠ [] := glue_ne_nil cws hne hc
    have hw1 : cleanWord w := hcw w (by simp)
    have hassoc : cws ++ w :: ws = (cws ++ [w]) ++ ws := by simp
    have hstep : (utf8Len (glue (cws ++ [w])) : ℤ) ≤ bound := by
      have := utf8Len_glue_prefix ws (cws ++ [w]) (by simp)
      rw [hassoc] at hfit
      have hcast : utf8Len (glue (cws ++ [w])) ≤ utf8Len (glue ((cws ++ [w]) ++ ws)) := this
      omega
    simp only [packSpec]
    rw [if_neg hgne, if_neg hgne]
    rw [if_pos (by
      have := utf8Len_glue_snoc cws hne w
      omega)]
    rw [show glue cws ++ ' ' :: w = glue (cws ++ [w]) from (glue_snoc cws hne w).symm]
    rw [ih (cws ++ [w]) (by simp) (by
        intro v hv
        rcases List.mem_append.mp hv with h | h
        · exact hc v h
        · rcases List.mem_singleton.mp h with rfl; exact hw1)
      (fun v hv => hcw v (by simp [hv])) (by rw [← hassoc]; exact hfit)]
    rw [hassoc]

theorem packSpec_lines (bound : ℤ) (ws : List Str) :
    ∀ cur, (cur = [] ∨ ∃ cws, cws ≠ [] ∧ (∀ w ∈ cws, cleanWord w) ∧ cur = glue cws) →
    (∀ w ∈ ws, cleanWord w) →
    ∀ l ∈ packSpec bound ws cur,
      ∃ ws₀, ws₀ ≠ [] ∧ (∀ w ∈ ws₀, cleanWord w) ∧ l = glue ws₀ := by
  induction ws with
  | nil =>
    intro cur hcur hws l hl
    simp only [packSpec] at hl
    rcases hcur with rfl | ⟨cws, hne, hc, rfl⟩
    · simp at hl
    · rw [if_neg (glue_ne_nil cws hne hc)] at hl
      rcases List.mem_singleton.mp hl with rfl
      exact ⟨cws, hne, hc, rfl⟩
  | cons w ws ih =>
    intro cur hcur hws l hl
    have hw1 : cleanWord w := hws w (by simp)
    have hrest : ∀ v ∈ ws, cleanWord v := fun v hv => hws v (by simp [hv])
    have hwrep : ([w] : List Str) ≠ [] ∧ (∀ v ∈ [w], cleanWord v) ∧ (w = glue [w]) :=
      ⟨by simp, by simpa using hw1, rfl⟩
    rcases hcur with rfl | ⟨cws, hne, hc, rfl⟩
    · simp only [packSpec, List.nil_append, eq_self_iff_true, if_true] at hl
      split at hl
      · exact ih w (Or.inr ⟨[w], hwrep⟩) hrest l (by simpa using hl)
      · exact ih w (Or.inr ⟨[w], hwrep⟩) hrest l (by simpa using hl)
    · have hgne : glue cws ≠ [] := glue_ne_nil cws hne hc
      simp only [packSpec, if_neg hgne] at hl
      split at hl
      · refine ih (glue cws ++ ' ' :: w)
          (Or.inr ⟨cws ++ [w], by simp, ?_, (glue_snoc cws hne w).symm⟩) hrest l hl
        intro v hv
        rcases List.mem_append.mp hv with h | h
        · exact hc v h
        · rcases List.mem_singleton.mp h with rfl; exact hw1
      · rcases List.mem_cons.mp (by simpa using hl) with rfl | h
        · exact ⟨cws, hne, hc, rfl⟩
        · exact ih w (Or.inr ⟨[w], hwrep⟩) hrest l h

/-- C8: wrapping is idempotent on its own output: any produced line
whose byte length is within the max-characters bound comes back
unchanged, as the single output line, when passed through wrapText
again with the same width and font size. -/
theorem c8 (text : Str) (maxWidthMM fontSize : ℚ) (l : Str)
    (hl : l ∈ wrapText text maxWidthMM fontSize)
    (hb : (utf8Len l : ℤ) ≤ maxCharsFor maxWidthMM fontSize) :
    wrapText l maxWidthMM fontSize = [l] := by
  rw [maxChars_eq_spec] at hb
  rw [c7] at hl ⊢
  unfold wrapTextSpec at hl ⊢
  obtain ⟨ws₀, hne, hclean, rfl⟩ :=
    packSpec_lines _ _ [] (Or.inl rfl)
      (splitWordsGo_clean text [] (by simp)) l hl
  rw [splitWords_glue ws₀ hne hclean]
  cases ws₀ with
  | nil => exact absurd rfl hne
  | cons w0 rest =>
    have hw0 : cleanWord w0 := hclean w0 (by simp)
    have hrest : ∀ v ∈ rest, cleanWord v := fun v hv => hclean v (by simp [hv])
    have hw0join : glue (w0 :: rest) = glue ([w0] ++ rest) := rfl
    have hw0le : (utf8Len w0 : ℤ) ≤ maxCharsSpec maxWidthMM fontSize := by
      have h1 : utf8Len (glue [w0]) ≤ utf8Len (glue ([w0] ++ rest)) :=
        utf8Len_glue_prefix rest [w0] (by simp)
      have h2 : utf8Len (glue [w0]) = utf8Len w0 := rfl
      rw [hw0join] at hb
      omega
    simp only [packSpec]
    rw [if_pos (by simpa [utf8Len] using hw0le)]
    simp only [if_pos rfl, if_true]
    rw [show glue (w0 :: rest) = glue ([w0] ++ rest) from rfl]
    rw [show (w0 : Str) = glue [w0] from rfl]
    exact packSpec_all_fit _ rest [w0] (by simp) (by simpa using hw0)
      hrest (by rw [← hw0join]; rw [hw0join]; exact hb)

/-- C8 witness: the single wrapped line of a short text re-wraps to
itself. -/
theorem c8_witness :
    (("hi there").data ∈ wrapText ("hi there").data 165 10.5) ∧
    ((utf8Len ("hi there").data : ℤ) ≤ maxCharsFor 165 10.5) ∧
    wrapText ("hi there").data 165 10.5 = [("hi there").data] :=
  ⟨by decide, by decide,
   c8 ("hi there").data 165 10.5 ("hi there").data (by decide) (by decide)⟩

-- ==========================================================
-- Claims C4, C5, C6: the PDF serializer
-- ==========================================================

theorem writePagesLoop_objectNum (compress : List Nat → List Nat) (ps : List pdfPage) :
    ∀ (i : Nat) (st : WriteState),
    (writePagesLoop compress ps i st).objectNum = st.objectNum + 2 * ps.length := by
  induction ps with
  | nil => intro i st; simp [writePagesLoop]
  | cons p rest ih =>
    intro i st
    simp only [writePagesLoop]
    rw [ih]
    simp only [writeStreamObject, writeObject, pushObject, List.length_cons]
    omega

theorem writePagesLoop_objs_ext (compress : List Nat → List Nat) (ps : List pdfPage) :
    ∀ (i : Nat) (st : WriteState),
    ∃ t, (writePagesLoop compress ps i st).objs = st.objs ++ t := by
  induction ps with
  | nil => intro i st; exact ⟨[], by simp [writePagesLoop]⟩
  | cons p rest ih =>
    intro i st
    simp only [writePagesLoop]
    obtain ⟨t, ht⟩ := ih (i + 1)
      (writeStreamObject (writeObject st (pageDict (4 + i * 2)))
        (streamHeader (compress (buildContentStream p)).length)
        (compress (buildContentStream p)))
    rw [ht]
    simp only [writeStreamObject, writeObject, pushObject, List.append_assoc]
    exact ⟨_, rfl⟩

theorem writePagesLoop_get (compress : List Nat → List Nat) (ps : List pdfPage) :
    ∀ (i : Nat) (st : WriteState), st.objectNum = st.objs.length →
    ∀ (j : Nat) (hj : j < ps.length),
      (((writePagesLoop compress ps i st).objs.get? (st.objs.length + 2 * j)).map
          (fun e => (e.num, e.body)) =
        some (st.objs.length + 2 * j + 1, strBytes (pageDict (4 + (i + j) * 2)))) ∧
      (((writePagesLoop compress ps i st).objs.get? (st.objs.length + 2 * j + 1)).map
          (fun e => (e.num, e.body)) =
        some (st.objs.length + 2 * j + 2,
          streamBody
            (streamHeader (compress (buildContentStream (ps.get ⟨j, hj⟩))).length)
            (compress (buildContentStream (ps.get ⟨j, hj⟩))))) := by
  induction ps with
  | nil => intro i st _ j hj; exact absurd hj (by simp)
  | cons p rest ih =>
    intro i st hnum j hj
    simp only [writePagesLoop]
    set st2 := writeStreamObject (writeObject st (pageDict (4 + i * 2)))
      (streamHeader (compress (buildContentStream p)).length)
      (compress (buildContentStream p)) with hst2
    have hobjs2 : st2.objs = st.objs ++
        [⟨st.objectNum + 1, st.buf.length, strBytes (pageDict (4 + i * 2))⟩,
         ⟨st.objectNum + 2,
          (st.buf ++ objBytes (st.objectNum + 1) (strBytes (pageDict (4 + i * 2)))).length,
          streamBody (streamHeader (compress (buildContentStream p)).length)
            (compress (buildContentStream p))⟩] := by
      rw [hst2]
      simp only [writeStreamObject, writeObject, pushObject]
      rw [List.append_assoc]
      rfl
    have hlen2 : st2.objs.length = st.objs.length + 2 := by
      rw [hobjs2]; simp
    have hnum2 : st2.objectNum = st2.objs.length := by
      rw [hlen2, hst2]
      simp only [writeStreamObject, writeObject, pushObject]
      omega
    cases j with
    | zero =>
      obtain ⟨t, ht⟩ := writePagesLoop_objs_ext compress rest (i + 1) st2
      rw [ht, hobjs2]
      constructor
      · rw [List.append_assoc]
        rw [List.get?_append_right (by omega)]
        simp only [Nat.mul_zero, Nat.add_zero, Nat.sub_self]
        simp [hnum]
      · rw [List.append_assoc]
        rw [List.get?_append_right (by omega)]
        have : st.objs.length + 2 * 0 + 1 - st.objs.length = 1 := by omega
        rw [this]
        simp [hnum]
    | succ j' =>
      have hj' : j' < rest.length := by simpa using hj
      have hih := ih (i + 1) st2 hnum2 j' hj'
      have hidx1 : st2.objs.length + 2 * j' = st.objs.length + 2 * (j' + 1) := by
        rw [hlen2]; omega
      have hidx2 : (i + 1) + j' = i + (j' + 1) := by omega
      obtain ⟨h1, h2⟩ := hih
      rw [hidx1, hidx2] at h1
      rw [hidx1] at h2
      exact ⟨h1, h2⟩

theorem charUtf8Bytes_pos (c : Char) : 0 < (charUtf8Bytes c).length := by
  unfold charUtf8Bytes
  dsimp only
  split
  · simp
  · split
    · simp
    · split <;> simp

theorem objBytes_ne_nil (num : Nat) (body : List Nat) : objBytes num body ≠ [] := by
  unfold objBytes
  intro h
  have h2 := congrArg List.length h
  simp only [List.length_append, List.length_nil] at h2
  have h3 : 0 < (strBytes ['e', 'n', 'd', 'o', 'b', 'j', '\n']).length := by decide
  omega

theorem drop_append_le {α : Type} : ∀ (l₁ l₂ : List α) (n : Nat), n ≤ l₁.length →
    (l₁ ++ l₂).drop n = l₁.drop n ++ l₂
  | _, _, 0, _ => by simp
  | a :: l₁, l₂, n + 1, h => by
    simp only [List.cons_append, List.drop_succ_cons]
    exact drop_append_le l₁ l₂ n (by simpa using h)
  | [], _, n + 1, h => by simp at h

/-- Serializer bookkeeping invariant: the offsets table mirrors the
emitted-object trace, object numbers are `1..objectNum` in emission
order, offsets strictly increase and stay inside the buffer, and the
buffer at each recorded offset indeed starts with that object's
`N 0 obj` line followed by its body and `endobj`. -/
def WInv (st : WriteState) : Prop :=
  st.offsets = st.objs.map (fun e => e.offset) ∧
  st.objs.map (fun e => e.num) = List.range' 1 st.objectNum ∧
  List.Pairwise (· < ·) st.offsets ∧
  (∀ o ∈ st.offsets, o < st.buf.length) ∧
  (∀ e ∈ st.objs, ∃ t, st.buf.drop e.offset = objBytes e.num e.body ++ t)

theorem pushObject_WInv (st : WriteState) (b : List Nat) (h : WInv st) :
    WInv (pushObject st b) := by
  obtain ⟨h1, h2, h3, h4, h5⟩ := h
  have hgrow : st.buf.length < (st.buf ++ objBytes (st.objectNum + 1) b).length := by
    rw [List.length_append]
    have := List.length_pos.mpr (objBytes_ne_nil (st.objectNum + 1) b)
    omega
  refine ⟨?_, ?_, ?_, ?_, ?_⟩
  · simp only [pushObject, List.map_append, List.map_cons, List.map_nil]
    rw [h1]
  · simp only [pushObject, List.map_append, List.map_cons, List.map_nil]
    rw [h2, List.range'_1_concat]
    simp [Nat.add_comm]
  · simp only [pushObject]
    rw [List.pairwise_append]
    refine ⟨h3, by simp, ?_⟩
    intro a ha b' hb'
    rcases List.mem_singleton.mp hb' with rfl
    exact h4 a ha
  · simp only [pushObject]
    intro o ho
    rcases List.mem_append.mp ho with hmem | hmem
    · exact lt_trans (h4 o hmem) hgrow
    · rcases List.mem_singleton.mp hmem with rfl
      exact hgrow
  · simp only [pushObject]
    intro e he
    rcases List.mem_append.mp he with hmem | hmem
    · obtain ⟨t, ht⟩ := h5 e hmem
      have hoff : e.offset ≤ st.buf.length := by
        have : e.offset ∈ st.offsets := by
          rw [h1]
          exact List.mem_map.mpr ⟨e, hmem, rfl⟩
        exact le_of_lt (h4 _ this)
      rw [drop_append_le st.buf _ e.offset hoff, ht, List.append_assoc]
      exact ⟨_, rfl⟩
    · rcases List.mem_singleton.mp hmem with rfl
      rw [List.drop_left]
      exact ⟨[], by simp⟩

theorem writeObject_WInv (st : WriteState) (c : Str) (h : WInv st) :
    WInv (writeObject st c) := pushObject_WInv st _ h

theorem writeStreamObject_WInv (st : WriteState) (hd : Str) (d : List Nat) (h : WInv st) :
    WInv (writeStreamObject st hd d) := pushObject_WInv st _ h

theorem writePagesLoop_WInv (compress : List Nat → List Nat) (ps : List pdfPage) :
    ∀ (i : Nat) (st : WriteState), WInv st → WInv (writePagesLoop compress ps i st) := by
  induction ps with
  | nil => intro i st h; exact h
  | cons p rest ih =>
    intro i st h
    exact ih (i + 1) _ (writeStreamObject_WInv _ _ _ (writeObject_WInv _ _ h))

theorem writeBody_WInv (compress : List Nat → List Nat) (d : pdfDocument) :
    WInv (writeBody compress d) := by
  unfold writeBody
  apply writePagesLoop_WInv
  apply writeObject_WInv
  apply writeObject_WInv
  refine ⟨rfl, rfl, List.Pairwise.nil, by simp, by simp⟩

theorem strBytes_append (a b : Str) : strBytes (a ++ b) = strBytes a ++ strBytes b := by
  induction a with
  | nil => simp [strBytes]
  | cons c cs ih => simp [strBytes, ih]

theorem catStrs_append (l1 l2 : List Str) :
    catStrs (l1 ++ l2) = catStrs l1 ++ catStrs l2 := by
  induction l1 with
  | nil => simp [catStrs]
  | cons s ss ih => simp [catStrs, ih]

theorem buildContentStream_shape (p : pdfPage) :
    ∃ mid, buildContentStream p =
      strBytes (("BT\n").data) ++ mid ++ strBytes (("ET\n").data) := by
  refine ⟨strBytes (catStrs (contentOpsLoop p [] 0)), ?_⟩
  unfold buildContentStream contentOps
  rw [show (("BT\n").data :: contentOpsLoop p [] 0 ++ [("ET\n").data]) =
    [("BT\n").data] ++ contentOpsLoop p [] 0 ++ [("ET\n").data] from rfl]
  rw [catStrs_append, catStrs_append, strBytes_append, strBytes_append]
  simp [catStrs, strBytes_append]

theorem contentOpsLoop_op_shapes (ts : List pdfText) :
    ∀ (f : Str) (s : ℚ), ∀ op ∈ contentOpsLoop ts f s,
      (∃ x, op = x ++ ['f', '\n']) ∨ (∃ x, op = x ++ ['m', '\n']) ∨
      (∃ x, op = x ++ ['j', '\n']) := by
  induction ts with
  | nil => intro f s op hop; simp [contentOpsLoop] at hop
  | cons t rest ih =>
    intro f s op hop
    simp only [contentOpsLoop] at hop
    rcases List.mem_append.mp hop with hm | hm
    · left
      split at hm
      · rcases List.mem_singleton.mp hm with rfl
        exact ⟨t.fontName ++ ' ' :: fmtFixed 1 t.fontSize ++ [' ', 'T'], by simp⟩
      · simp at hm
    · rcases List.mem_cons.mp hm with rfl | hm2
      · right; left
        exact ⟨("1 0 0 1 ").data ++ fmtFixed 2 t.x ++ ' ' :: fmtFixed 2 t.y ++ [' ', 'T'],
          by simp⟩
      · rcases List.mem_cons.mp hm2 with rfl | hm3
        · right; right
          exact ⟨'(' :: escapePDFString t.text ++ [')', ' ', 'T'], by simp⟩
        · exact ih t.fontName t.fontSize op hm3

theorem contentOpsLoop_ne_BT_ET (ts : List pdfText) (f : Str) (s : ℚ) :
    ∀ op ∈ contentOpsLoop ts f s, op ≠ ("BT\n").data ∧ op ≠ ("ET\n").data := by
  have hBT : ("BT\n").data = ['B'] ++ ['T', '\n'] := rfl
  have hET : ("ET\n").data = ['E'] ++ ['T', '\n'] := rfl
  intro op hop
  rcases contentOpsLoop_op_shapes ts f s op hop with ⟨x, rfl⟩ | ⟨x, rfl⟩ | ⟨x, rfl⟩ <;>
  · constructor <;>
    · intro hcon
      have h2 := congrArg List.reverse hcon
      simp at h2

theorem contentOps_count (p : pdfPage) :
    (contentOps p).count (("BT\n").data) = 1 ∧
    (contentOps p).count (("ET\n").data) = 1 := by
  have hops := contentOpsLoop_ne_BT_ET p [] 0
  have hzB : (contentOpsLoop p [] 0).count (("BT\n").data) = 0 :=
    List.count_eq_zero.mpr (fun hm => (hops _ hm).1 rfl)
  have hzE : (contentOpsLoop p [] 0).count (("ET\n").data) = 0 :=
    List.count_eq_zero.mpr (fun hm => (hops _ hm).2 rfl)
  unfold contentOps
  have hne1 : ((("ET\n").data == ("BT\n").data)) = false := by decide
  have hne2 : ((("BT\n").data == ("ET\n").data)) = false := by decide
  constructor <;>
    simp [List.count_cons, List.count_append, hzB, hzE, hne1, hne2]

/-- C4: exporting the empty string produces a document with zero pages
(the in-memory construction is total — in Go the only fallible step is
the final os.WriteFile, which is outside the model), and the Pages
dictionary the serializer writes for it has an empty Kids array and
/Count 0; a zero-page document is a valid result, not an error. -/
theorem c4 :
    (exportDoc []).pages = [] ∧
    pagesDict (exportDoc []).pages.length =
      ("<<\n/Type /Pages\n/Kids []\n/Count 0\n>>\n").data ∧
    (∀ compress : List Nat → List Nat,
      (writeBody compress (exportDoc [])).objs.map (fun e => e.num) = [1, 2]) := by
  refine ⟨by decide, by decide, fun compress => rfl⟩

/-- C5: for a document with N pages the serializer emits objects
numbered 1..2+2N in ascending order; page i's Page dictionary is the
object at trace position 2+2i with object number 3+2i, and its
/Contents entry names object (3+2i)+1 = 4+2i, which is exactly the
next emitted object (the page's content stream); the offsets table
records, in emission order, each object's strictly increasing starting
byte offset, and the buffer at each recorded offset begins with that
object's `N 0 obj` header followed by its body. -/
theorem c5 (compress : List Nat → List Nat) (d : pdfDocument) (i : Nat)
    (hi : i < d.pages.length) :
    ((writeBody compress d).objs.map (fun e => e.num) =
      List.range' 1 (2 + 2 * d.pages.length)) ∧
    (((writeBody compress d).objs.get? (2 + 2 * i)).map (fun e => (e.num, e.body)) =
      some (3 + 2 * i, strBytes (pageDict (3 + 2 * i + 1)))) ∧
    (((writeBody compress d).objs.get? (2 + 2 * i + 1)).map (fun e => e.num) =
      some (4 + 2 * i)) ∧
    ((writeBody compress d).offsets =
      (writeBody compress d).objs.map (fun e => e.offset)) ∧
    List.Pairwise (· < ·) (writeBody compress d).offsets ∧
    (∀ e ∈ (writeBody compress d).objs, ∃ t,
      (writeBody compress d).buf.drop e.offset = objBytes e.num e.body ++ t) := by
  obtain ⟨h1, h2, h3, h4, h5⟩ := writeBody_WInv compress d
  have hnum : (writeBody compress d).objectNum = 2 + 2 * d.pages.length := by
    unfold writeBody
    rw [writePagesLoop_objectNum]
    rfl
  have hbody : writeBody compress d = writePagesLoop compress d.pages 0
      (writeObject (writeObject ⟨headerBytes, [], 0, []⟩ catalogDict)
        (pagesDict d.pages.length)) := rfl
  have hg := writePagesLoop_get compress d.pages 0
    (writeObject (writeObject ⟨headerBytes, [], 0, []⟩ catalogDict)
      (pagesDict d.pages.length)) rfl i hi
  have hlen2 : (writeObject (writeObject ⟨headerBytes, [], 0, []⟩ catalogDict)
      (pagesDict d.pages.length)).objs.length = 2 := rfl
  rw [hlen2] at hg
  refine ⟨by rw [h2, hnum], ?_, ?_, h1, h3, h5⟩
  · have h := hg.1
    rw [hbody]
    have e1 : 2 + 2 * i + 1 = 3 + 2 * i := by omega
    have e2 : 4 + (0 + i) * 2 = 3 + 2 * i + 1 := by omega
    rw [e1, e2] at h
    exact h
  · have h := hg.2
    rw [hbody]
    cases hopt : (writePagesLoop compress d.pages 0
        (writeObject (writeObject ⟨headerBytes, [], 0, []⟩ catalogDict)
          (pagesDict d.pages.length))).objs.get? (2 + 2 * i + 1) with
    | none =>
      rw [hopt] at h
      exact absurd h (fun hcon => Option.noConfusion hcon)
    | some e =>
      rw [hopt] at h
      have h2 := Option.some.inj h
      have hnum_e : e.num = 4 + 2 * i := by
        have h3 := congrArg Prod.fst h2
        simp at h3
        omega
      show some e.num = some (4 + 2 * i)
      rw [hnum_e]

/-- C5 witness: a one-page document serialized with the identity in
place of zlib: object numbers are 1, 2, 3, 4. -/
theorem c5_witness :
    ((0:Nat) < 1) ∧
    ((writeBody (fun bs => bs) ⟨[[]]⟩).objs.map (fun e => e.num) =
      List.range' 1 4) :=
  ⟨by decide, (c5 (fun bs => bs) ⟨[[]]⟩ 0 (by decide)).1⟩

/-- C6: for every page, the bytes written between the `stream` /
`endstream` markers of its content-stream object are exactly
`compress` applied to the page's content stream (`streamBody` places
precisely `streamData` between the markers), the declared /Length in
the stream dictionary is the length of those compressed bytes, and —
for any inverse `inflate` of `compress`, as zlib inflate is of zlib
compression — inflating them succeeds and returns the original
content stream, which starts with the single `BT` operator line and
ends with the single `ET` operator line (exactly one of each among
the emitted operator lines). -/
theorem c6 (compress inflate : List Nat → List Nat)
    (hzlib : ∀ bs, inflate (compress bs) = bs)
    (d : pdfDocument) (i : Nat) (hi : i < d.pages.length) :
    (((writeBody compress d).objs.get? (2 + 2 * i + 1)).map (fun e => e.body) =
      some (streamBody
        (streamHeader (compress (buildContentStream (d.pages.get ⟨i, hi⟩))).length)
        (compress (buildContentStream (d.pages.get ⟨i, hi⟩))))) ∧
    (streamHeader (compress (buildContentStream (d.pages.get ⟨i, hi⟩))).length =
      ("<<\n/Length ").data ++
        natChars (compress (buildContentStream (d.pages.get ⟨i, hi⟩))).length ++
        ("\n/Filter /FlateDecode\n>>\n").data) ∧
    (inflate (compress (buildContentStream (d.pages.get ⟨i, hi⟩))) =
      buildContentStream (d.pages.get ⟨i, hi⟩)) ∧
    (∃ mid, buildContentStream (d.pages.get ⟨i, hi⟩) =
      strBytes (("BT\n").data) ++ mid ++ strBytes (("ET\n").data)) ∧
    ((contentOps (d.pages.get ⟨i, hi⟩)).count (("BT\n").data) = 1) ∧
    ((contentOps (d.pages.get ⟨i, hi⟩)).count (("ET\n").data) = 1) := by
  have hbody : writeBody compress d = writePagesLoop compress d.pages 0
      (writeObject (writeObject ⟨headerBytes, [], 0, []⟩ catalogDict)
        (pagesDict d.pages.length)) := rfl
  have hg := (writePagesLoop_get compress d.pages 0
    (writeObject (writeObject ⟨headerBytes, [], 0, []⟩ catalogDict)
      (pagesDict d.pages.length)) rfl i hi).2
  have hlen2 : (writeObject (writeObject ⟨headerBytes, [], 0, []⟩ catalogDict)
      (pagesDict d.pages.length)).objs.length = 2 := rfl
  rw [hlen2] at hg
  refine ⟨?_, rfl, hzlib _, buildContentStream_shape _,
    (contentOps_count _).1, (contentOps_count _).2⟩
  rw [hbody]
  cases hopt : (writePagesLoop compress d.pages 0
      (writeObject (writeObject ⟨headerBytes, [], 0, []⟩ catalogDict)
        (pagesDict d.pages.length))).objs.get? (2 + 2 * i + 1) with
  | none =>
    rw [hopt] at hg
    exact absurd hg (fun hcon => Option.noConfusion hcon)
  | some e =>
    rw [hopt] at hg
    have h2 := Option.some.inj hg
    have hb := congrArg Prod.snd h2
    simp only at hb
    show some e.body = _
    rw [hb]

/-- C6 witness: the identity function is its own inverse, standing in
for zlib compress/inflate on a one-page document; the page's operator
lines contain exactly one BT. -/
theorem c6_witness :
    ((0:Nat) < 1) ∧
    ((contentOps ([] : pdfPage)).count (("BT\n").data) = 1) :=
  ⟨by decide,
   (c6 (fun bs => bs) (fun bs => bs) (fun _ => rfl) ⟨[[]]⟩ 0 (by decide)).2.2.2.2.1⟩

-- ==========================================================
-- Claim C10: CRLF normalization
-- ==========================================================

/-- Relation between a raw split line and its once-more-normalized
counterpart: normalizing a second time removes at most one trailing
carriage return from each line. -/
def lineR (a b : Str) : Prop := a = b ∨ a = b ++ ['\r']

theorem splitNL_ne_nil (t : Str) : splitNL t ≠ [] := by
  cases t with
  | nil => simp [splitNL]
  | cons c rest =>
    simp only [splitNL]
    split
    · simp
    · split <;> simp

theorem goReplaceCRLF_cons_ne (c : Char) (t : Str)
    (h : ¬(c = '\r' ∧ t.head? = some '\n')) :
    goReplaceCRLF (c :: t) = c :: goReplaceCRLF t := by
  rw [goReplaceCRLF.eq_def]
  split
  · rename_i rest heq
    rw [List.cons.injEq] at heq
    obtain ⟨rfl, rfl⟩ := heq
    exact absurd ⟨rfl, rfl⟩ h
  · rename_i c' rest heq
    rw [List.cons.injEq] at heq
    obtain ⟨rfl, rfl⟩ := heq
    rfl
  · rename_i heq
    exact absurd heq (by simp)

theorem splitNL_cons_nl (t : Str) : splitNL ('\n' :: t) = [] :: splitNL t := rfl

theorem splitNL_norm (t : Str) :
    List.Forall₂ lineR (splitNL t) (splitNL (goReplaceCRLF t)) := by
  induction t with
  | nil => exact List.Forall₂.cons (Or.inl rfl) List.Forall₂.nil
  | cons c t' ih =>
    by_cases hcr : c = '\r' ∧ t'.head? = some '\n'
    · obtain ⟨rfl, hh⟩ := hcr
      cases t' with
      | nil => simp at hh
      | cons c2 rest =>
        have hc2 : c2 = '\n' := by simpa using hh
        subst hc2
        have hLHS : splitNL ('\r' :: '\n' :: rest) = ['\r'] :: splitNL rest := by
          simp only [splitNL]
          rw [if_pos trivial, if_neg (show ¬('\r' = '\n') from by decide)]
        have hRHS : goReplaceCRLF ('\r' :: '\n' :: rest) = '\n' :: goReplaceCRLF rest := rfl
        rw [hLHS, hRHS, splitNL_cons_nl]
        refine List.Forall₂.cons (Or.inr rfl) ?_
        have hnorm2 : goReplaceCRLF ('\n' :: rest) = '\n' :: goReplaceCRLF rest := rfl
        rw [hnorm2, splitNL_cons_nl, splitNL_cons_nl] at ih
        cases ih with
        | cons hR htail => exact htail
    · rw [goReplaceCRLF_cons_ne c t' hcr]
      by_cases hnl : c = '\n'
      · subst hnl
        rw [splitNL_cons_nl, splitNL_cons_nl]
        exact List.Forall₂.cons (Or.inl rfl) ih
      · obtain ⟨a, as, ha⟩ : ∃ a as, splitNL t' = a :: as := by
          cases hx : splitNL t' with
          | nil => exact absurd hx (splitNL_ne_nil t')
          | cons a as => exact ⟨a, as, rfl⟩
        obtain ⟨b, bs, hb⟩ : ∃ b bs, splitNL (goReplaceCRLF t') = b :: bs := by
          cases hx : splitNL (goReplaceCRLF t') with
          | nil => exact absurd hx (splitNL_ne_nil _)
          | cons b bs => exact ⟨b, bs, rfl⟩
        have hL : splitNL (c :: t') = (c :: a) :: as := by
          simp only [splitNL, if_neg hnl, ha]
        have hR : splitNL (c :: goReplaceCRLF t') = (c :: b) :: bs := by
          simp only [splitNL, if_neg hnl, hb]
        rw [hL, hR]
        rw [ha, hb] at ih
        cases ih with
        | cons hab htail =>
          refine List.Forall₂.cons ?_ htail
          rcases hab with rfl | rfl
          · exact Or.inl rfl
          · exact Or.inr rfl

theorem trim_append_cr (l : Str) : goTrimSpace (l ++ ['\r']) = goTrimSpace l := by
  unfold goTrimSpace goTrimRightSpace goTrimLeftSpace
  rw [List.dropWhile_append]
  by_cases hall : (List.dropWhile goIsSpace l).isEmpty
  · rw [if_pos hall]
    have h1 : List.dropWhile goIsSpace ['\r'] = [] := by decide
    rw [h1]
    have h2 : List.dropWhile goIsSpace l = [] := by
      cases hx : List.dropWhile goIsSpace l with
      | nil => rfl
      | cons x xs => rw [hx] at hall; simp at hall
    rw [h2]
  · rw [if_neg hall]
    rw [List.reverse_append]
    have h3 : (['\r'] : Str).reverse = ['\r'] := rfl
    rw [h3]
    have h4 : List.dropWhile goIsSpace ('\r' :: (List.dropWhile goIsSpace l).reverse) =
        List.dropWhile goIsSpace (List.dropWhile goIsSpace l).reverse := by
      rw [List.dropWhile_cons]
      rw [if_pos (by decide)]
    rw [show ['\r'] ++ (List.dropWhile goIsSpace l).reverse =
      '\r' :: (List.dropWhile goIsSpace l).reverse from rfl, h4]

theorem lineR_trim (a b : Str) (h : lineR a b) : goTrimSpace a = goTrimSpace b := by
  rcases h with rfl | rfl
  · rfl
  · exact trim_append_cr b

theorem lineR_leading (a b : Str) (h : lineR a b) :
    utf8Len a - utf8Len (a.dropWhile (fun c => c = ' ' ∨ c = '\t')) =
    utf8Len b - utf8Len (b.dropWhile (fun c => c = ' ' ∨ c = '\t')) := by
  rcases h with rfl | rfl
  · rfl
  · rw [List.dropWhile_append]
    by_cases hall : (List.dropWhile (fun c => decide (c = ' ' ∨ c = '\t')) b).isEmpty
    · rw [if_pos hall]
      have h2 : List.dropWhile (fun c => decide (c = ' ' ∨ c = '\t')) b = [] := by
        cases hx : List.dropWhile (fun c => decide (c = ' ' ∨ c = '\t')) b with
        | nil => rfl
        | cons x xs => rw [hx] at hall; simp at hall
      have h1 : List.dropWhile (fun c => decide (c = ' ' ∨ c = '\t')) ['\r'] = ['\r'] := by
        decide
      rw [h1, h2]
      rw [utf8Len_append]
      have : utf8Len ['\r'] = 1 := by decide
      rw [this]
      simp [utf8Len]
    · rw [if_neg hall]
      rw [utf8Len_append, utf8Len_append]
      have : utf8Len ['\r'] = 1 := by decide
      rw [this]
      omega

theorem classifyLine_R (a b trimmed : Str) (h : lineR a b) :
    classifyLine a trimmed = classifyLine b trimmed := by
  unfold classifyLine
  rw [lineR_leading a b h]

theorem processLines_R (ls1 ls2 : List Str) (h : List.Forall₂ lineR ls1 ls2) :
    ∀ isFirst, processLines isFirst ls1 = processLines isFirst ls2 := by
  induction h with
  | nil => intro _; rfl
  | cons hab htail ih =>
    intro isFirst
    rename_i a b ls1' ls2'
    simp only [processLines]
    rw [lineR_trim a b hab]
    have hhead : ls1'.head?.map goTrimSpace = ls2'.head?.map goTrimSpace := by
      cases htail with
      | nil => rfl
      | cons hab2 _ =>
        simp only [List.head?_cons, Option.map_some']
        rw [lineR_trim _ _ hab2]
    rw [hhead, classifyLine_R a b (goTrimSpace b) hab, ih true, ih false]

theorem parseContent_norm (s : Str) :
    parseContent (goReplaceCRLF s) = parseContent s := by
  unfold parseContent
  exact (processLines_R _ _ (splitNL_norm (goReplaceCRLF s)) true).symm

/-- C10: Export is line-ending insensitive: replacing every CRLF by LF
before exporting yields byte-identical PDF output, because parseContent
normalizes CRLF to LF before splitting (for any compression function,
i.e. for the actual zlib as well). -/
theorem c10 (compress : List Nat → List Nat) (s : Str) :
    exportBytes compress (goReplaceCRLF s) = exportBytes compress s := by
  unfold exportBytes exportDoc
  rw [parseContent_norm]
